import Mathlib

/-!
# A shallow embedding of `ray.c` (grid raycaster)

Numbers: every finite C `double`/`float` denotes a rational, so the values of
`x`, `y`, `angle`, the hit coordinates and the wall height are modelled in `ℚ`
with exact arithmetic.  The candidate position of a move, the value of the
`float` variables `update_x` and `update_y`, is rounded as the source computes
it (two `double` operations, then the narrowing to `float`), the two roundings
being parameters (`Rounding`); rounding of the other floating point operations
is not modelled.  The library functions `cos` and `sin` are parameters (`Trig`).
C `int` values are `Int`; a conversion or an `int` operation whose result does
not fit 32 bits, and a read outside the `MAP` array, have no defined result and
are modelled by `none`.
-/

namespace Ray

/-! ## Constants -/

def SCREEN_HEIGHT : Int := 480
def SCREEN_WIDTH : Int := SCREEN_HEIGHT * 2
def MAP_SIZE : Int := 8
def BLOCK_SIZE : Int := SCREEN_HEIGHT / MAP_SIZE
def MAX_DEPTH : Int := MAP_SIZE * BLOCK_SIZE
def M_PI : ℚ := 314159265358979323846 / 100000000000000000000
def FOV : ℚ := M_PI / 3
def HALF_FOV : ℚ := FOV / 2
def NUMBER_RAYS : Int := 120
def STEP_ANGLE : ℚ := FOV / NUMBER_RAYS
def RAY_WIDTH : Int := SCREEN_HEIGHT / NUMBER_RAYS
def CONS : Int := 20000

/-- The map grid of the program: 8 rows of 8 characters, row after row. -/
def MAP : String :=
  "########" ++
  "#    # #" ++
  "# #    #" ++
  "#    # #" ++
  "###  # #" ++
  "# #    #" ++
  "#      #" ++
  "########"

/-! ## Machine integers and array reads -/

def INT_MIN : Int := -2147483648
def INT_MAX : Int := 2147483647

/-- The value of a C `int` expression: defined only when it fits 32 bits. -/
def intOf (z : Int) : Option Int :=
  if INT_MIN ≤ z ∧ z ≤ INT_MAX then some z else none

/-- Truncation toward zero, the rounding of the C conversion `(int)`. -/
def truncQ (q : ℚ) : Int :=
  if 0 ≤ q then ⌊q⌋ else ⌈q⌉

/-- The C conversion `(int)q` of a floating point value. -/
def castInt (q : ℚ) : Option Int :=
  intOf (truncQ q)

/-- The read `m[i]` of a string literal: its characters, then the terminating
zero byte at `i = length`; any other index is outside the array. -/
def readMap (m : String) (i : Int) : Option Char :=
  if i < 0 then none
  else if i.toNat < m.length then m.data[i.toNat]?
  else if i.toNat = m.length then some (Char.ofNat 0)
  else none

/-- The grid coordinates and the map index of a world point, as both
`checkCollision` and `rayCast` compute them: the result is `(row, col, index)`. -/
def cellIndex (x y : ℚ) : Option (Int × Int × Int) :=
  match castInt (x / BLOCK_SIZE), castInt (y / BLOCK_SIZE) with
  | some col, some row =>
    match intOf (row * MAP_SIZE) with
    | some r8 =>
      match intOf (r8 + col) with
      | some index => some (row, col, index)
      | none => none
    | none => none
  | _, _ => none

/-- The function `checkCollision` on the map `m` (the program reads `MAP`). -/
def checkCollisionOn (m : String) (x y : ℚ) : Option Int :=
  match cellIndex x y with
  | some (_, _, index) =>
    match readMap m index with
    | some ch => if ch = '#' then some 1 else some 0
    | none => none
  | none => none

def checkCollision (x y : ℚ) : Option Int :=
  checkCollisionOn MAP x y

/-! ## The player and the input handler -/

/-- The library functions `cos` and `sin` of `math.h`, as functions on the
rationals that the `double` values denote. -/
structure Trig where
  cos : ℚ → ℚ
  sin : ℚ → ℚ

/-- The range of `cos` and `sin`: both stay in `[-1, 1]`. -/
def Trig.Bounded (t : Trig) : Prop :=
  ∀ a : ℚ, |t.cos a| ≤ 1 ∧ |t.sin a| ≤ 1

/-- Rounding of a value to the nearest `double` and to the nearest `float`. -/
structure Rounding where
  toDouble : ℚ → ℚ
  toFloat : ℚ → ℚ

/-- What the proofs use of the two roundings: they are monotone and leave the
integers up to `2 ^ 24`, which both formats represent, as they are. -/
def Rounding.Faithful (r : Rounding) : Prop :=
  (∀ a b : ℚ, a ≤ b → r.toDouble a ≤ r.toDouble b) ∧
  (∀ a b : ℚ, a ≤ b → r.toFloat a ≤ r.toFloat b) ∧
  (∀ n : Int, |n| ≤ 16777216 → r.toDouble n = n) ∧
  (∀ n : Int, |n| ≤ 16777216 → r.toFloat n = n)

structure Player where
  x : ℚ
  y : ℚ
  angle : ℚ
deriving DecidableEq

/-- The four entries of the keyboard state that `userInput` reads. -/
structure Keys where
  left : Bool
  right : Bool
  up : Bool
  down : Bool
deriving DecidableEq

/-- First block of `userInput`: `if (keystates[LEFT]) angle -= 0.1`. -/
def stepLeft (k : Keys) (p : Player) : Player :=
  if k.left then { p with angle := p.angle - 1 / 10 } else p

/-- Second block of `userInput`: `if (keystates[RIGHT]) angle += 0.1`. -/
def stepRight (k : Keys) (p : Player) : Player :=
  if k.right then { p with angle := p.angle + 1 / 10 } else p

/-- Third block of `userInput`: the forward move, gated by `checkCollision`. -/
def stepUp (t : Trig) (r : Rounding) (k : Keys) (p : Player) : Option Player :=
  if k.up then
    let update_x := r.toFloat (r.toDouble (p.x + r.toDouble (t.cos p.angle * 5)))
    let update_Y := r.toFloat (r.toDouble (p.y - r.toDouble (t.sin p.angle * 5)))
    match checkCollision update_x update_Y with
    | some hit => if hit = 0 then some { p with x := update_x, y := update_Y } else some p
    | none => none
  else some p

/-- Fourth block of `userInput`: the backward move, gated by `checkCollision`. -/
def stepDown (t : Trig) (r : Rounding) (k : Keys) (p : Player) : Option Player :=
  if k.down then
    let update_x := r.toFloat (r.toDouble (p.x - r.toDouble (t.cos p.angle * 5)))
    let update_y := r.toFloat (r.toDouble (p.y + r.toDouble (t.sin p.angle * 5)))
    match checkCollision update_x update_y with
    | some hit => if hit = 0 then some { p with x := update_x, y := update_y } else some p
    | none => none
  else some p

/-- The function `userInput`: the four blocks in source order. -/
def userInput (t : Trig) (r : Rounding) (k : Keys) (p : Player) : Option Player :=
  (stepUp t r k (stepRight k (stepLeft k p))).bind (stepDown t r k)

/-- The angle after the two turn blocks of `userInput`, which is the angle
that the two move blocks use. -/
def turnedAngle (k : Keys) (p : Player) : ℚ :=
  (stepRight k (stepLeft k p)).angle

/-- The value of `update_x` in the forward move of `userInput`. -/
def forwardX (t : Trig) (r : Rounding) (k : Keys) (p : Player) : ℚ :=
  r.toFloat (r.toDouble (p.x + r.toDouble (t.cos (turnedAngle k p) * 5)))

/-- The value of `update_Y` in the forward move of `userInput`. -/
def forwardY (t : Trig) (r : Rounding) (k : Keys) (p : Player) : ℚ :=
  r.toFloat (r.toDouble (p.y - r.toDouble (t.sin (turnedAngle k p) * 5)))

/-- The player as `main` sets it before the loop. -/
def initialPlayer : Player :=
  { x := ((SCREEN_WIDTH / 4 : Int) : ℚ), y := ((SCREEN_WIDTH / 4 : Int) : ℚ), angle := M_PI }

/-- The player after the frames of `main` whose keyboard states are `ks`
(drawing does not change the player). -/
def frames (t : Trig) (r : Rounding) : List Keys → Player → Option Player
  | [], p => some p
  | k :: ks, p => (userInput t r k p).bind (frames t r ks)

/-! ## The ray march and the projection of `rayCast` -/

/-- What one iteration of the inner loop of `rayCast` computes before it reads
the map. -/
structure Probe where
  depth : Int
  hit_x : ℚ
  hit_y : ℚ
  row : Int
  col : Int
  index : Int
deriving DecidableEq

/-- The inner loop of `rayCast` for one ray, `c` and `s` being the values of
`cos(initial_angle)` and `sin(initial_angle)`: `n` iterations are left and the
loop variable is `depth`.  The first component lists the probes whose index
was computed, in order; the second is `none` when an operation had no defined
result, `some none` when the loop ended without a hit, and `some (some pr)`
when it stopped at the wall probe `pr`. -/
def marchFrom (m : String) (px py c s : ℚ) : Nat → Int → List Probe × Option (Option Probe)
  | 0, _ => ([], some none)
  | n + 1, depth =>
    let hit_x := px + c * depth
    let hit_y := py - s * depth
    match cellIndex hit_x hit_y with
    | none => ([], none)
    | some (row, col, index) =>
      let pr : Probe := ⟨depth, hit_x, hit_y, row, col, index⟩
      match readMap m index with
      | none => ([pr], none)
      | some ch =>
        if ch = '#' then ([pr], some (some pr))
        else (pr :: (marchFrom m px py c s n (depth + 1)).1,
              (marchFrom m px py c s n (depth + 1)).2)

/-- The whole inner loop: `for (depth = 0; depth < MAX_DEPTH; depth++)`. -/
def rayMarch (m : String) (px py c s : ℚ) : List Probe × Option (Option Probe) :=
  marchFrom m px py c s MAX_DEPTH.toNat 0

/-- The shade: `int color = 255 / (1 + depth * depth * 0.0001)`. -/
def shade (depth : Int) : Option Int :=
  match intOf (depth * depth) with
  | some sq => castInt (255 / (1 + (sq : ℚ) * (1 / 10000)))
  | none => none

/-- The fisheye correction `depth *= cos(player->angle - initial_angle)` on the
`int` variable `depth`, with `c` the value of the cosine. -/
def correctedDepth (depth : Int) (c : ℚ) : Option Int :=
  castInt ((depth : ℚ) * c)

/-- The wall height `CONS / (depth + 0.00001)`, where `depth` is the value of
the divisor's first summand. -/
def wallHeight (depth : ℚ) : ℚ :=
  (CONS : ℚ) / (depth + 1 / 100000)

/-- The slice that `rayCast` draws for a ray. -/
structure Slice where
  color : Int
  depth : Int
  wall_height : ℚ
  x : Int
  y : Int
  w : Int
  h : Int
deriving DecidableEq

/-- The body of the `if (MAP[index] == '#')` block of `rayCast`, for the ray
number `ray` of angle `initial_angle` that stopped at `hit`. -/
def drawSlice (t : Trig) (p : Player) (initial_angle : ℚ) (ray : Int) (hit : Probe) :
    Option Slice :=
  match shade hit.depth, correctedDepth hit.depth (t.cos (p.angle - initial_angle)) with
  | some color, some depth =>
    let wall_height := wallHeight depth
    match castInt (((SCREEN_HEIGHT / 2 : Int) : ℚ) - wall_height / 2), castInt wall_height with
    | some sy, some sh =>
      some ⟨color, depth, wall_height, SCREEN_HEIGHT + ray * RAY_WIDTH, sy, RAY_WIDTH, sh⟩
    | _, _ => none
  | _, _ => none

/-- The outer loop of `rayCast`: `n` rays are left, the next one is number `ray`
and has the angle `initial_angle`.  A ray that hits nothing draws nothing. -/
def rayCastFrom (t : Trig) (m : String) (p : Player) : Nat → Int → ℚ → Option (List (Option Slice))
  | 0, _, _ => some []
  | n + 1, ray, initial_angle =>
    match (rayMarch m p.x p.y (t.cos initial_angle) (t.sin initial_angle)).2 with
    | none => none
    | some none =>
      (rayCastFrom t m p n (ray + 1) (initial_angle + STEP_ANGLE)).map (fun l => none :: l)
    | some (some hit) =>
      match drawSlice t p initial_angle ray hit with
      | none => none
      | some sl =>
        (rayCastFrom t m p n (ray + 1) (initial_angle + STEP_ANGLE)).map (fun l => some sl :: l)

/-- The function `rayCast`: the slices of the 120 rays, rightmost ray first. -/
def rayCast (t : Trig) (m : String) (p : Player) : Option (List (Option Slice)) :=
  rayCastFrom t m p NUMBER_RAYS.toNat 0 (p.angle - HALF_FOV)

/-! ## Cells of the grid -/

/-- The point `(x, y)` lies in a non-wall cell of the 8 by 8 grid `m`: its cell
`(row, col) = (trunc (y / 60), trunc (x / 60))` is a cell of the grid and the
character of `m` at `row * 8 + col` is not the wall character. -/
def inOpenCell (m : String) (x y : ℚ) : Prop :=
  0 ≤ truncQ (y / 60) ∧ truncQ (y / 60) < 8 ∧ 0 ≤ truncQ (x / 60) ∧ truncQ (x / 60) < 8 ∧
  ∃ ch, m.data[(truncQ (y / 60) * 8 + truncQ (x / 60)).toNat]? = some ch ∧ ch ≠ '#'

/-- The point `(x, y)` lies in a wall cell of the 8 by 8 grid `m`: its cell is a
cell of the grid and the character of `m` at `row * 8 + col` is the wall
character. -/
def inWallCell (m : String) (x y : ℚ) : Prop :=
  0 ≤ truncQ (y / 60) ∧ truncQ (y / 60) < 8 ∧ 0 ≤ truncQ (x / 60) ∧ truncQ (x / 60) < 8 ∧
  m.data[(truncQ (y / 60) * 8 + truncQ (x / 60)).toNat]? = some '#'

/-- The probe addresses a cell of the grid and a character of the map. -/
def Probe.InGrid (pr : Probe) : Prop :=
  0 ≤ pr.row ∧ pr.row < 8 ∧ 0 ≤ pr.col ∧ pr.col < 8 ∧ 0 ≤ pr.index ∧ pr.index < 64

/-! ## Test data -/

/-- An 8 by 8 map whose only walls are the border cells. -/
def BORDER_MAP : String :=
  "########" ++
  "#      #" ++
  "#      #" ++
  "#      #" ++
  "#      #" ++
  "#      #" ++
  "#      #" ++
  "########"

/-- The probe at which the ray due east from (100, 100) stops on the border
map. -/
def eastHit : Probe :=
  ⟨320, 420, 100, 1, 7, 15⟩

/-- The value of `cos (M_PI / 6)`, the cosine between the heading and the
outermost ray, to 16 digits. -/
def cosSixth : ℚ := 8660254037844387 / 10000000000000000

/-- The keyboard state with only the Left key pressed. -/
def leftOnly : Keys :=
  { left := true, right := false, up := false, down := false }

/-- The keyboard state with only the Up key pressed. -/
def upOnly : Keys :=
  { left := false, right := false, up := true, down := false }

/-- The values of `cos` and `sin` at angle 0, at every angle. -/
def eastTrig : Trig :=
  { cos := fun _ => 1, sin := fun _ => 0 }

/-- The values that `cos` and `sin` return at `M_PI`, at every angle: the sine
of the `double` nearest to pi is not 0. -/
def westTrig : Trig :=
  { cos := fun _ => -1, sin := fun _ => 12246467991473532 / 100000000000000000000000000000000 }

/-- No rounding: every value is representable. -/
def exactRounding : Rounding :=
  { toDouble := fun q => q, toFloat := fun q => q }

/-- Rounding to the nearest multiple of `2 ^ (-16)`, the spacing of the `float`
values between 128 and 256. -/
def fixedRounding : Rounding :=
  { toDouble := fun q => (⌊q * 65536 + 1 / 2⌋ : ℚ) / 65536,
    toFloat := fun q => (⌊q * 65536 + 1 / 2⌋ : ℚ) / 65536 }

/-! ## Basic facts -/

theorem BLOCK_SIZE_eq : BLOCK_SIZE = 60 := by decide
theorem MAP_SIZE_eq : MAP_SIZE = 8 := by decide
theorem MAX_DEPTH_toNat : MAX_DEPTH.toNat = 480 := by decide

theorem truncQ_of_nonneg {q : ℚ} (h : 0 ≤ q) : truncQ q = ⌊q⌋ := by
  simp [truncQ, h]

theorem truncQ_eq {q : ℚ} {n : Int} (h0 : 0 ≤ q) (h1 : (n : ℚ) ≤ q) (h2 : q < n + 1) :
    truncQ q = n := by
  rw [truncQ_of_nonneg h0]
  exact Int.floor_eq_iff.mpr ⟨h1, h2⟩

theorem intOf_eq {z : Int} (h1 : INT_MIN ≤ z) (h2 : z ≤ INT_MAX) : intOf z = some z := by
  simp [intOf, h1, h2]

theorem floor_cell_bounds {x : ℚ} (h0 : 0 ≤ x) (h1 : x < 480) :
    0 ≤ ⌊x / 60⌋ ∧ ⌊x / 60⌋ < 8 := by
  constructor
  · exact Int.floor_nonneg.mpr (by positivity)
  · rw [Int.floor_lt]
    rw [div_lt_iff₀ (by norm_num)]
    norm_num
    linarith

theorem castInt_cell {x : ℚ} (h0 : 0 ≤ x) (h1 : x < 480) :
    castInt (x / BLOCK_SIZE) = some ⌊x / 60⌋ := by
  have hb := floor_cell_bounds h0 h1
  rw [BLOCK_SIZE_eq]
  have h60 : (((60 : Int) : ℚ)) = 60 := by norm_num
  rw [h60, castInt, truncQ_of_nonneg (by positivity)]
  apply intOf_eq
  · unfold INT_MIN; omega
  · unfold INT_MAX; omega

theorem cellIndex_inMap {x y : ℚ} (hx0 : 0 ≤ x) (hx1 : x < 480) (hy0 : 0 ≤ y) (hy1 : y < 480) :
    cellIndex x y = some (⌊y / 60⌋, ⌊x / 60⌋, ⌊y / 60⌋ * 8 + ⌊x / 60⌋) := by
  have hbx := floor_cell_bounds hx0 hx1
  have hby := floor_cell_bounds hy0 hy1
  have h1 : intOf (⌊y / 60⌋ * MAP_SIZE) = some (⌊y / 60⌋ * 8) := by
    rw [MAP_SIZE_eq]
    apply intOf_eq
    · unfold INT_MIN; omega
    · unfold INT_MAX; omega
  have h2 : intOf (⌊y / 60⌋ * 8 + ⌊x / 60⌋) = some (⌊y / 60⌋ * 8 + ⌊x / 60⌋) := by
    apply intOf_eq
    · unfold INT_MIN; omega
    · unfold INT_MAX; omega
  simp only [cellIndex, castInt_cell hx0 hx1, castInt_cell hy0 hy1, h1, h2]

/-- Inside the grid a read of a 64 character map is a read of its characters. -/
theorem readMap_cell (m : String) (hm : m.length = 64) (row col : Int)
    (hr0 : 0 ≤ row) (hr1 : row < 8) (hc0 : 0 ≤ col) (hc1 : col < 8) :
    ∃ ch, readMap m (row * 8 + col) = some ch ∧
      m.data[(row * 8 + col).toNat]? = some ch := by
  have h : (row * 8 + col).toNat < 64 := by omega
  have hlen : (row * 8 + col).toNat < m.data.length := by
    have : m.data.length = m.length := rfl
    omega
  refine ⟨m.data[(row * 8 + col).toNat], ?_, List.getElem?_eq_getElem hlen⟩
  have hneg : ¬ (row * 8 + col < 0) := by omega
  simp only [readMap, hneg, if_false, hm, h, if_true]
  exact List.getElem?_eq_getElem hlen

/-- The reference map has an unbroken border: its open cells are in rows and
columns 1 to 6. -/
theorem MAP_border : ∀ r c : Fin 8, MAP.data[r.val * 8 + c.val]? ≠ some '#' →
    1 ≤ r.val ∧ r.val ≤ 6 ∧ 1 ≤ c.val ∧ c.val ≤ 6 := by
  decide

theorem MAP_open_cell (row col : Int) (hr0 : 0 ≤ row) (hr1 : row < 8) (hc0 : 0 ≤ col)
    (hc1 : col < 8) (h : MAP.data[(row * 8 + col).toNat]? ≠ some '#') :
    1 ≤ row ∧ row ≤ 6 ∧ 1 ≤ col ∧ col ≤ 6 := by
  have hb := MAP_border ⟨row.toNat, by omega⟩ ⟨col.toNat, by omega⟩
  have he : (row * 8 + col).toNat = row.toNat * 8 + col.toNat := by omega
  rw [he] at h
  have := hb h
  simp only at this
  omega

/-- The collision check on a point of the 480 by 480 map. -/
theorem checkCollision_inMap {x y : ℚ} (hx0 : 0 ≤ x) (hx1 : x < 480) (hy0 : 0 ≤ y)
    (hy1 : y < 480) :
    checkCollision x y =
      some (if MAP.data[(⌊y / 60⌋ * 8 + ⌊x / 60⌋).toNat]? = some '#' then 1 else 0) := by
  have hbx := floor_cell_bounds hx0 hx1
  have hby := floor_cell_bounds hy0 hy1
  obtain ⟨ch, hr, hd⟩ := readMap_cell MAP (by decide) _ _ hby.1 hby.2 hbx.1 hbx.2
  simp only [checkCollision, checkCollisionOn, cellIndex_inMap hx0 hx1 hy0 hy1, hr, hd]
  by_cases hc : ch = '#' <;> simp [hc]

theorem truncQ_ge_one {q : ℚ} (h : 1 ≤ truncQ q) : 1 ≤ q := by
  unfold truncQ at h
  split_ifs at h with h0
  · have := Int.le_floor.mp h
    simpa using this
  · exfalso
    have hq : q ≤ ((0 : Int) : ℚ) := by push_cast; linarith [not_le.mp h0]
    have := Int.ceil_le.mpr hq
    omega

theorem truncQ_le_six {q : ℚ} (h : truncQ q ≤ 6) : q < 7 := by
  unfold truncQ at h
  split_ifs at h with h0
  · have h7 : ⌊q⌋ < 7 := by omega
    have := Int.floor_lt.mp h7
    simpa using this
  · linarith [not_le.mp h0]

/-- A point in an open cell of the reference map is at least one block away
from the edge of the map. -/
theorem inOpenCell_bounds {x y : ℚ} (h : inOpenCell MAP x y) :
    60 ≤ x ∧ x < 420 ∧ 60 ≤ y ∧ y < 420 := by
  obtain ⟨hr0, hr1, hc0, hc1, ch, hch, hne⟩ := h
  have hopen : MAP.data[(truncQ (y / 60) * 8 + truncQ (x / 60)).toNat]? ≠ some '#' := by
    rw [hch]
    intro hcon
    exact hne (Option.some.inj hcon)
  obtain ⟨h1, h2, h3, h4⟩ := MAP_open_cell _ _ hr0 hr1 hc0 hc1 hopen
  have hy1 := truncQ_ge_one h1
  have hy2 := truncQ_le_six h2
  have hx1 := truncQ_ge_one h3
  have hx2 := truncQ_le_six h4
  rw [le_div_iff₀ (by norm_num)] at hy1 hx1
  rw [div_lt_iff₀ (by norm_num)] at hy2 hx2
  refine ⟨by linarith, by linarith, by linarith, by linarith⟩

/-- On a point of the map the check answers 1, or it answers 0 and the point
is in an open cell. -/
theorem checkCollision_cases {x y : ℚ} (hx0 : 0 ≤ x) (hx1 : x < 480) (hy0 : 0 ≤ y)
    (hy1 : y < 480) :
    checkCollision x y = some 1 ∨ (checkCollision x y = some 0 ∧ inOpenCell MAP x y) := by
  have hbx := floor_cell_bounds hx0 hx1
  have hby := floor_cell_bounds hy0 hy1
  rw [checkCollision_inMap hx0 hx1 hy0 hy1]
  by_cases hc : MAP.data[(⌊y / 60⌋ * 8 + ⌊x / 60⌋).toNat]? = some '#'
  · left
    simp [hc]
  · right
    refine ⟨by simp [hc], ?_⟩
    obtain ⟨ch, _, hd⟩ := readMap_cell MAP (by decide) _ _ hby.1 hby.2 hbx.1 hbx.2
    have hty : truncQ (y / 60) = ⌊y / 60⌋ := truncQ_of_nonneg (by positivity)
    have htx : truncQ (x / 60) = ⌊x / 60⌋ := truncQ_of_nonneg (by positivity)
    unfold inOpenCell
    rw [hty, htx]
    refine ⟨hby.1, hby.2, hbx.1, hbx.2, ch, hd, ?_⟩
    intro hcon
    rw [hd, hcon] at hc
    exact hc rfl

theorem eastTrig_bounded : eastTrig.Bounded := by
  intro a
  simp [eastTrig]

theorem initialPlayer_x : initialPlayer.x = 240 := by
  simp [initialPlayer, SCREEN_WIDTH, SCREEN_HEIGHT]

theorem initialPlayer_y : initialPlayer.y = 240 := by
  simp [initialPlayer, SCREEN_WIDTH, SCREEN_HEIGHT]

theorem inOpenCell_start : inOpenCell MAP 240 240 := by
  have h4 : truncQ ((240 : ℚ) / 60) = 4 :=
    truncQ_eq (by norm_num) (by norm_num) (by norm_num)
  unfold inOpenCell
  rw [h4]
  exact ⟨by decide, by decide, by decide, by decide, ' ', by decide, by decide⟩

theorem exactRounding_faithful : exactRounding.Faithful := by
  refine ⟨?_, ?_, ?_, ?_⟩ <;> intros <;> simp_all [exactRounding]

theorem fixed_round_mono {a b : ℚ} (h : a ≤ b) :
    (⌊a * 65536 + 1 / 2⌋ : ℚ) / 65536 ≤ (⌊b * 65536 + 1 / 2⌋ : ℚ) / 65536 := by
  have hf : ⌊a * 65536 + 1 / 2⌋ ≤ ⌊b * 65536 + 1 / 2⌋ :=
    Int.floor_le_floor (by linarith)
  have hq : ((⌊a * 65536 + 1 / 2⌋ : Int) : ℚ) ≤ ((⌊b * 65536 + 1 / 2⌋ : Int) : ℚ) := by
    exact_mod_cast hf
  exact div_le_div_of_nonneg_right hq (by norm_num)

theorem fixed_round_int (n : Int) :
    (⌊(n : ℚ) * 65536 + 1 / 2⌋ : ℚ) / 65536 = n := by
  have hf : ⌊(n : ℚ) * 65536 + 1 / 2⌋ = n * 65536 := by
    apply Int.floor_eq_iff.mpr
    constructor
    · push_cast
      linarith
    · push_cast
      linarith
  rw [hf]
  push_cast
  field_simp

theorem fixedRounding_faithful : fixedRounding.Faithful := by
  refine ⟨?_, ?_, ?_, ?_⟩
  · intro a b h
    exact fixed_round_mono h
  · intro a b h
    exact fixed_round_mono h
  · intro n _
    exact fixed_round_int n
  · intro n _
    exact fixed_round_int n

theorem westTrig_bounded : westTrig.Bounded := by
  intro a
  constructor
  · simp [westTrig]
  · simp only [westTrig]
    rw [abs_le]
    constructor <;> norm_num

/-- A faithful rounding keeps a value between two integers it represents. -/
theorem toDouble_between (r : Rounding) (hr : r.Faithful) (lo hi : Int)
    (hlo : |lo| ≤ 16777216) (hhi : |hi| ≤ 16777216) {q : ℚ} (h1 : (lo : ℚ) ≤ q)
    (h2 : q ≤ (hi : ℚ)) : (lo : ℚ) ≤ r.toDouble q ∧ r.toDouble q ≤ (hi : ℚ) := by
  obtain ⟨hmono, _, hfix, _⟩ := hr
  constructor
  · calc (lo : ℚ) = r.toDouble lo := (hfix lo hlo).symm
      _ ≤ r.toDouble q := hmono _ _ h1
  · calc r.toDouble q ≤ r.toDouble hi := hmono _ _ h2
      _ = (hi : ℚ) := hfix hi hhi

theorem toFloat_between (r : Rounding) (hr : r.Faithful) (lo hi : Int)
    (hlo : |lo| ≤ 16777216) (hhi : |hi| ≤ 16777216) {q : ℚ} (h1 : (lo : ℚ) ≤ q)
    (h2 : q ≤ (hi : ℚ)) : (lo : ℚ) ≤ r.toFloat q ∧ r.toFloat q ≤ (hi : ℚ) := by
  obtain ⟨_, hmono, _, hfix⟩ := hr
  constructor
  · calc (lo : ℚ) = r.toFloat lo := (hfix lo hlo).symm
      _ ≤ r.toFloat q := hmono _ _ h1
  · calc r.toFloat q ≤ r.toFloat hi := hmono _ _ h2
      _ = (hi : ℚ) := hfix hi hhi

/-- The rounded step `d * 5` of a move stays within 5 units. -/
theorem step_bounds (r : Rounding) (hr : r.Faithful) {d : ℚ} (hd : |d| ≤ 1) :
    -5 ≤ r.toDouble (d * 5) ∧ r.toDouble (d * 5) ≤ 5 := by
  have h := abs_le.mp hd
  have hb := toDouble_between r hr (-5) 5 (by decide) (by decide) (q := d * 5)
    (by push_cast; linarith) (by push_cast; linarith)
  push_cast at hb
  exact hb

/-- A coordinate at least one block inside the map, moved by at most 5 units
and rounded, is inside the map. -/
theorem moved_bounds (r : Rounding) (hr : r.Faithful) {x e : ℚ} (hx1 : 60 ≤ x)
    (hx2 : x < 420) (he1 : -5 ≤ e) (he2 : e ≤ 5) :
    0 ≤ r.toFloat (r.toDouble (x + e)) ∧ r.toFloat (r.toDouble (x + e)) < 480 := by
  have hb := toDouble_between r hr 55 425 (by decide) (by decide) (q := x + e)
    (by push_cast; linarith) (by push_cast; linarith)
  have hc := toFloat_between r hr 55 425 (by decide) (by decide) hb.1 hb.2
  push_cast at hc
  constructor <;> linarith

/-- The forward candidate from an open cell of the reference map is a point of
the map. -/
theorem forward_inMap (t : Trig) (ht : t.Bounded) (r : Rounding) (hr : r.Faithful)
    (x y a : ℚ) (h : inOpenCell MAP x y) :
    (0 ≤ r.toFloat (r.toDouble (x + r.toDouble (t.cos a * 5))) ∧
      r.toFloat (r.toDouble (x + r.toDouble (t.cos a * 5))) < 480) ∧
    (0 ≤ r.toFloat (r.toDouble (y - r.toDouble (t.sin a * 5))) ∧
      r.toFloat (r.toDouble (y - r.toDouble (t.sin a * 5))) < 480) := by
  obtain ⟨hx1, hx2, hy1, hy2⟩ := inOpenCell_bounds h
  obtain ⟨hc1, hc2⟩ := step_bounds r hr (ht a).1
  obtain ⟨hs1, hs2⟩ := step_bounds r hr (ht a).2
  constructor
  · exact moved_bounds r hr hx1 hx2 hc1 hc2
  · have he : y - r.toDouble (t.sin a * 5) = y + -r.toDouble (t.sin a * 5) := by ring
    rw [he]
    exact moved_bounds r hr hy1 hy2 (by linarith) (by linarith)

/-- The backward candidate from an open cell of the reference map is a point
of the map. -/
theorem backward_inMap (t : Trig) (ht : t.Bounded) (r : Rounding) (hr : r.Faithful)
    (x y a : ℚ) (h : inOpenCell MAP x y) :
    (0 ≤ r.toFloat (r.toDouble (x - r.toDouble (t.cos a * 5))) ∧
      r.toFloat (r.toDouble (x - r.toDouble (t.cos a * 5))) < 480) ∧
    (0 ≤ r.toFloat (r.toDouble (y + r.toDouble (t.sin a * 5))) ∧
      r.toFloat (r.toDouble (y + r.toDouble (t.sin a * 5))) < 480) := by
  obtain ⟨hx1, hx2, hy1, hy2⟩ := inOpenCell_bounds h
  obtain ⟨hc1, hc2⟩ := step_bounds r hr (ht a).1
  obtain ⟨hs1, hs2⟩ := step_bounds r hr (ht a).2
  constructor
  · have he : x - r.toDouble (t.cos a * 5) = x + -r.toDouble (t.cos a * 5) := by ring
    rw [he]
    exact moved_bounds r hr hx1 hx2 (by linarith) (by linarith)
  · exact moved_bounds r hr hy1 hy2 hs1 hs2

theorem stepUp_keeps_open (t : Trig) (ht : t.Bounded) (r : Rounding) (hr : r.Faithful)
    (k : Keys) (p : Player) (h : inOpenCell MAP p.x p.y) :
    ∃ q, stepUp t r k p = some q ∧ inOpenCell MAP q.x q.y := by
  unfold stepUp
  by_cases hk : k.up = true
  · obtain ⟨⟨hx0, hx1⟩, ⟨hy0, hy1⟩⟩ := forward_inMap t ht r hr p.x p.y p.angle h
    rcases checkCollision_cases hx0 hx1 hy0 hy1 with h1 | ⟨h0, hopen⟩
    · exact ⟨p, by simp [hk, h1], h⟩
    · exact ⟨{ p with x := r.toFloat (r.toDouble (p.x + r.toDouble (t.cos p.angle * 5))),
                      y := r.toFloat (r.toDouble (p.y - r.toDouble (t.sin p.angle * 5))) },
        by simp [hk, h0], hopen⟩
  · exact ⟨p, by simp [hk], h⟩

theorem stepDown_keeps_open (t : Trig) (ht : t.Bounded) (r : Rounding) (hr : r.Faithful)
    (k : Keys) (p : Player) (h : inOpenCell MAP p.x p.y) :
    ∃ q, stepDown t r k p = some q ∧ inOpenCell MAP q.x q.y := by
  unfold stepDown
  by_cases hk : k.down = true
  · obtain ⟨⟨hx0, hx1⟩, ⟨hy0, hy1⟩⟩ := backward_inMap t ht r hr p.x p.y p.angle h
    rcases checkCollision_cases hx0 hx1 hy0 hy1 with h1 | ⟨h0, hopen⟩
    · exact ⟨p, by simp [hk, h1], h⟩
    · exact ⟨{ p with x := r.toFloat (r.toDouble (p.x - r.toDouble (t.cos p.angle * 5))),
                      y := r.toFloat (r.toDouble (p.y + r.toDouble (t.sin p.angle * 5))) },
        by simp [hk, h0], hopen⟩
  · exact ⟨p, by simp [hk], h⟩

theorem turn_keeps_position (k : Keys) (p : Player) :
    (stepRight k (stepLeft k p)).x = p.x ∧ (stepRight k (stepLeft k p)).y = p.y := by
  unfold stepRight stepLeft
  by_cases hl : k.left = true <;> by_cases hr : k.right = true <;> simp [hl, hr]

theorem userInput_keeps_open (t : Trig) (ht : t.Bounded) (r : Rounding) (hr : r.Faithful)
    (k : Keys) (p : Player) (h : inOpenCell MAP p.x p.y) :
    ∃ q, userInput t r k p = some q ∧ inOpenCell MAP q.x q.y := by
  have hturn := turn_keeps_position k p
  have h1 : inOpenCell MAP (stepRight k (stepLeft k p)).x (stepRight k (stepLeft k p)).y := by
    rw [hturn.1, hturn.2]
    exact h
  obtain ⟨q1, hq1, ho1⟩ := stepUp_keeps_open t ht r hr k _ h1
  obtain ⟨q2, hq2, ho2⟩ := stepDown_keeps_open t ht r hr k q1 ho1
  exact ⟨q2, by simp [userInput, hq1, hq2], ho2⟩

theorem frames_keep_open (t : Trig) (ht : t.Bounded) (r : Rounding) (hr : r.Faithful)
    (ks : List Keys) :
    ∀ p : Player, inOpenCell MAP p.x p.y →
      ∃ q, frames t r ks p = some q ∧ inOpenCell MAP q.x q.y := by
  induction ks with
  | nil =>
    intro p h
    exact ⟨p, rfl, h⟩
  | cons k ks ih =>
    intro p h
    obtain ⟨q1, hq1, ho1⟩ := userInput_keeps_open t ht r hr k p h
    obtain ⟨q2, hq2, ho2⟩ := ih q1 ho1
    exact ⟨q2, by simp [frames, hq1, hq2], ho2⟩

theorem floor_open_bounds {x : ℚ} (h1 : 1 ≤ ⌊x / 60⌋) (h2 : ⌊x / 60⌋ ≤ 6) :
    60 ≤ x ∧ x < 420 := by
  have ha := Int.le_floor.mp h1
  have h7 : ⌊x / 60⌋ < 7 := by omega
  have hb := Int.floor_lt.mp h7
  push_cast at ha hb
  rw [le_div_iff₀ (by norm_num)] at ha
  rw [div_lt_iff₀ (by norm_num)] at hb
  constructor <;> linarith

/-- The march on the reference map, started at a point that is at most one
unit outside the open cells, reads only cells of the grid. -/
theorem marchFrom_safe (px py c s : ℚ) (hc : |c| ≤ 1) (hs : |s| ≤ 1) :
    ∀ (n : Nat) (depth : Int),
      59 ≤ px + c * depth → px + c * depth ≤ 421 →
      59 ≤ py - s * depth → py - s * depth ≤ 421 →
      (marchFrom MAP px py c s n depth).2 ≠ none ∧
      ∀ pr ∈ (marchFrom MAP px py c s n depth).1, pr.InGrid ∧
        pr.hit_x = px + c * pr.depth ∧ pr.hit_y = py - s * pr.depth ∧
        pr.row = truncQ (pr.hit_y / 60) ∧ pr.col = truncQ (pr.hit_x / 60) ∧
        pr.index = pr.row * 8 + pr.col := by
  have hc2 := abs_le.mp hc
  have hs2 := abs_le.mp hs
  intro n
  induction n with
  | zero =>
    intro depth _ _ _ _
    simp [marchFrom]
  | succ n ih =>
    intro depth hx0 hx1 hy0 hy1
    have hX0 : 0 ≤ px + c * depth := by linarith
    have hX1 : px + c * depth < 480 := by linarith
    have hY0 : 0 ≤ py - s * depth := by linarith
    have hY1 : py - s * depth < 480 := by linarith
    have hbx := floor_cell_bounds hX0 hX1
    have hby := floor_cell_bounds hY0 hY1
    obtain ⟨ch, hr, hd⟩ := readMap_cell MAP (by decide) _ _ hby.1 hby.2 hbx.1 hbx.2
    have hprobe : (⟨depth, px + c * depth, py - s * depth, ⌊(py - s * depth) / 60⌋,
        ⌊(px + c * depth) / 60⌋,
        ⌊(py - s * depth) / 60⌋ * 8 + ⌊(px + c * depth) / 60⌋⟩ : Probe).InGrid := by
      unfold Probe.InGrid
      simp only
      omega
    have hty : truncQ ((py - s * depth) / 60) = ⌊(py - s * depth) / 60⌋ :=
      truncQ_of_nonneg (by positivity)
    have htx : truncQ ((px + c * depth) / 60) = ⌊(px + c * depth) / 60⌋ :=
      truncQ_of_nonneg (by positivity)
    simp only [marchFrom, cellIndex_inMap hX0 hX1 hY0 hY1, hr]
    by_cases hwall : ch = '#'
    · simp only [hwall, if_true]
      refine ⟨by simp, ?_⟩
      intro pr hpr
      rw [List.mem_singleton] at hpr
      subst hpr
      exact ⟨hprobe, rfl, rfl, hty.symm, htx.symm, rfl⟩
    · simp only [hwall, if_false]
      have hopen : MAP.data[(⌊(py - s * depth) / 60⌋ * 8 +
          ⌊(px + c * depth) / 60⌋).toNat]? ≠ some '#' := by
        rw [hd]
        intro hcon
        exact hwall (Option.some.inj hcon)
      obtain ⟨h1, h2, h3, h4⟩ := MAP_open_cell _ _ hby.1 hby.2 hbx.1 hbx.2 hopen
      obtain ⟨hyA, hyB⟩ := floor_open_bounds h1 h2
      obtain ⟨hxA, hxB⟩ := floor_open_bounds h3 h4
      have hnx : px + c * ((depth + 1 : Int) : ℚ) = px + c * depth + c := by
        push_cast
        ring
      have hny : py - s * ((depth + 1 : Int) : ℚ) = py - s * depth - s := by
        push_cast
        ring
      obtain ⟨ih1, ih2⟩ := ih (depth + 1) (by rw [hnx]; linarith) (by rw [hnx]; linarith)
        (by rw [hny]; linarith) (by rw [hny]; linarith)
      refine ⟨ih1, ?_⟩
      intro pr hpr
      rw [List.mem_cons] at hpr
      rcases hpr with hpr | hpr
      · subst hpr
        exact ⟨hprobe, rfl, rfl, hty.symm, htx.symm, rfl⟩
      · exact ih2 pr hpr

/-- Row 1 of the border map is open in the columns 1 to 6. -/
theorem BORDER_MAP_row1 : ∀ c : Fin 8, 1 ≤ c.val → c.val ≤ 6 →
    readMap BORDER_MAP ((8 : Int) + (c.val : Int)) = some ' ' := by
  decide

theorem floor_100 : ⌊(100 : ℚ) / 60⌋ = 1 :=
  Int.floor_eq_iff.mpr ⟨by norm_num, by norm_num⟩

/-- The march due east from (100, 100) on the border map: from every depth up
to 320 it runs on to the probe at depth 320. -/
theorem marchFrom_east : ∀ (k n : Nat), k ≤ 320 →
    (marchFrom BORDER_MAP 100 100 1 0 (n + k + 1) (320 - (k : Int))).2 = some (some eastHit) := by
  intro k
  induction k with
  | zero =>
    intro n _
    have hx : (100 : ℚ) + 1 * (((320 - ((0 : Nat) : Int) : Int)) : ℚ) = 420 := by norm_num
    have hy : (100 : ℚ) - 0 * (((320 - ((0 : Nat) : Int) : Int)) : ℚ) = 100 := by norm_num
    have hf : ⌊(420 : ℚ) / 60⌋ = 7 := Int.floor_eq_iff.mpr ⟨by norm_num, by norm_num⟩
    have hidx := cellIndex_inMap (x := 420) (y := 100) (by norm_num) (by norm_num)
      (by norm_num) (by norm_num)
    rw [hf, floor_100] at hidx
    have hread : readMap BORDER_MAP (1 * 8 + 7) = some '#' := by decide
    simp only [marchFrom, hx, hy, hidx, hread, if_true, eastHit]
    simp
  | succ k ih =>
    intro n hk
    have hd : (320 - ((k + 1 : Nat) : Int)) + 1 = 320 - (k : Int) := by push_cast; ring
    have hx : (100 : ℚ) + 1 * (((320 - ((k + 1 : Nat) : Int) : Int)) : ℚ) = 419 - k := by
      push_cast
      ring
    have hy : (100 : ℚ) - 0 * (((320 - ((k + 1 : Nat) : Int) : Int)) : ℚ) = 100 := by
      norm_num
    have hk2 : (k : ℚ) ≤ 319 := by
      have : k ≤ 319 := by omega
      exact_mod_cast this
    have hk0 : (0 : ℚ) ≤ k := by positivity
    have hX0 : (0 : ℚ) ≤ 419 - k := by linarith
    have hX1 : (419 : ℚ) - k < 480 := by linarith
    have hidx := cellIndex_inMap (x := 419 - k) (y := 100) hX0 hX1 (by norm_num) (by norm_num)
    rw [floor_100] at hidx
    have hc1 : 1 ≤ ⌊((419 : ℚ) - k) / 60⌋ := by
      apply Int.le_floor.mpr
      rw [le_div_iff₀ (by norm_num)]
      push_cast
      linarith
    have hc6 : ⌊((419 : ℚ) - k) / 60⌋ ≤ 6 := by
      have : ⌊((419 : ℚ) - k) / 60⌋ < 7 := by
        apply Int.floor_lt.mpr
        rw [div_lt_iff₀ (by norm_num)]
        push_cast
        linarith
      omega
    have hrow := BORDER_MAP_row1 ⟨(⌊((419 : ℚ) - k) / 60⌋).toNat, by omega⟩
      (by simp only; omega) (by simp only; omega)
    have hcast : (((⌊((419 : ℚ) - k) / 60⌋).toNat : Nat) : Int) = ⌊((419 : ℚ) - k) / 60⌋ :=
      Int.toNat_of_nonneg (by omega)
    simp only [hcast] at hrow
    have hread : readMap BORDER_MAP (1 * 8 + ⌊((419 : ℚ) - k) / 60⌋) = some ' ' := by
      have : (1 : Int) * 8 = 8 := by norm_num
      rw [this]
      exact hrow
    have hspace : ¬ (' ' = '#') := by decide
    simp only [marchFrom, hx, hy, hidx, hread, hspace, if_false, hd]
    exact ih n (by omega)

theorem rayMarch_east : (rayMarch BORDER_MAP 100 100 1 0).2 = some (some eastHit) := by
  have h := marchFrom_east 320 159 (by norm_num)
  have h0 : (320 : Int) - ((320 : Nat) : Int) = 0 := by norm_num
  rw [h0] at h
  unfold rayMarch
  rw [MAX_DEPTH_toNat]
  exact h

/-- The quotient whose truncation is the shade. -/
theorem shade_quotient_bounds (sq : Int) (h : 0 ≤ sq) :
    0 ≤ (255 : ℚ) / (1 + (sq : ℚ) * (1 / 10000)) ∧
    (255 : ℚ) / (1 + (sq : ℚ) * (1 / 10000)) ≤ 255 := by
  have hs : (0 : ℚ) ≤ sq := by exact_mod_cast h
  have hden : (1 : ℚ) ≤ 1 + (sq : ℚ) * (1 / 10000) := by
    have : 0 ≤ (sq : ℚ) * (1 / 10000) := by positivity
    linarith
  constructor
  · positivity
  · rw [div_le_iff₀ (by linarith)]
    nlinarith

/-- While `depth * depth` fits an `int`, the shade is the floor of the
quotient. -/
theorem shade_eq_floor (depth : Int) (h0 : 0 ≤ depth) (h1 : depth ≤ 46340) :
    shade depth = some ⌊(255 : ℚ) / (1 + ((depth * depth : Int) : ℚ) * (1 / 10000))⌋ := by
  have hsq0 : 0 ≤ depth * depth := by nlinarith
  have hsq1 : depth * depth ≤ 2147395600 := by nlinarith
  have hi : intOf (depth * depth) = some (depth * depth) := by
    apply intOf_eq
    · unfold INT_MIN; omega
    · unfold INT_MAX; omega
  obtain ⟨hq0, hq1⟩ := shade_quotient_bounds (depth * depth) hsq0
  have hf0 : 0 ≤ ⌊(255 : ℚ) / (1 + ((depth * depth : Int) : ℚ) * (1 / 10000))⌋ :=
    Int.floor_nonneg.mpr hq0
  have hf1 : ⌊(255 : ℚ) / (1 + ((depth * depth : Int) : ℚ) * (1 / 10000))⌋ ≤ 255 := by
    have := Int.floor_le_floor hq1
    simpa using this
  simp only [shade, hi, castInt, truncQ_of_nonneg hq0]
  apply intOf_eq
  · unfold INT_MIN; omega
  · unfold INT_MAX; omega

theorem castInt_eq {q : ℚ} {n : Int} (h0 : 0 ≤ q) (h1 : (n : ℚ) ≤ q) (h2 : q < n + 1)
    (hn : n ≤ INT_MAX) : castInt q = some n := by
  have hnn : (0 : ℚ) < n + 1 := lt_of_le_of_lt h0 h2
  have hn0 : 0 ≤ n := by
    have : (0 : Int) < n + 1 := by exact_mod_cast hnn
    omega
  rw [castInt, truncQ_eq h0 h1 h2]
  apply intOf_eq
  · unfold INT_MIN; omega
  · exact hn

/-- On a point of the map, lying in a wall cell is reading the wall
character at the floor index. -/
theorem inWallCell_iff {x y : ℚ} (hx0 : 0 ≤ x) (hx1 : x < 480) (hy0 : 0 ≤ y)
    (hy1 : y < 480) :
    inWallCell MAP x y ↔ MAP.data[(⌊y / 60⌋ * 8 + ⌊x / 60⌋).toNat]? = some '#' := by
  have hbx := floor_cell_bounds hx0 hx1
  have hby := floor_cell_bounds hy0 hy1
  have hty : truncQ (y / 60) = ⌊y / 60⌋ := truncQ_of_nonneg (by positivity)
  have htx : truncQ (x / 60) = ⌊x / 60⌋ := truncQ_of_nonneg (by positivity)
  unfold inWallCell
  rw [hty, htx]
  constructor
  · intro h
    exact h.2.2.2.2
  · intro h
    exact ⟨hby.1, hby.2, hbx.1, hbx.2, h⟩

/-- On a point of the map the check answers 1 in a wall cell and 0 outside the
wall cells. -/
theorem checkCollision_wall {x y : ℚ} (hx0 : 0 ≤ x) (hx1 : x < 480) (hy0 : 0 ≤ y)
    (hy1 : y < 480) :
    (inWallCell MAP x y → checkCollision x y = some 1) ∧
    (¬ inWallCell MAP x y → checkCollision x y = some 0) := by
  rw [inWallCell_iff hx0 hx1 hy0 hy1, checkCollision_inMap hx0 hx1 hy0 hy1]
  constructor
  · intro h
    simp [h]
  · intro h
    simp [h]

/-- The forward move of `userInput` with Down not pressed, by the answer of
the collision check on the candidate. -/
theorem userInput_up_of_check (t : Trig) (r : Rounding) (k : Keys) (p : Player)
    (hup : k.up = true) (hdown : k.down = false) :
    (checkCollision (forwardX t r k p) (forwardY t r k p) = some 1 →
      userInput t r k p = some { x := p.x, y := p.y, angle := turnedAngle k p }) ∧
    (checkCollision (forwardX t r k p) (forwardY t r k p) = some 0 →
      userInput t r k p =
        some { x := forwardX t r k p, y := forwardY t r k p, angle := turnedAngle k p }) := by
  obtain ⟨hx, hy⟩ := turn_keeps_position k p
  have heta : stepRight k (stepLeft k p) =
      { x := p.x, y := p.y, angle := (stepRight k (stepLeft k p)).angle } := by
    rw [← hx, ← hy]
  unfold forwardX forwardY turnedAngle
  constructor
  · intro h
    rw [← hx, ← hy] at h
    unfold userInput stepUp
    simp only [hup, if_true, h]
    simp only [Option.some_bind, stepDown, hdown]
    simp
    exact heta
  · intro h
    rw [← hx, ← hy] at h
    unfold userInput stepUp
    simp only [hup, if_true, h]
    simp only [Option.some_bind, stepDown, hdown]
    simp
    rw [hx, hy]
    exact ⟨rfl, rfl⟩

/-- The shade is positive and at most 255 up to the depth 1593. -/
theorem shade_range_wide (depth : Int) (h0 : 0 ≤ depth) (h1 : depth ≤ 1593) :
    ∃ color, shade depth = some color ∧ 0 < color ∧ color ≤ 255 := by
  have hsq0 : 0 ≤ depth * depth := by nlinarith
  have hsq1 : depth * depth ≤ 2537649 := by nlinarith
  obtain ⟨_, hq1⟩ := shade_quotient_bounds (depth * depth) hsq0
  refine ⟨_, shade_eq_floor depth h0 (by omega), ?_, ?_⟩
  · have h1le : ((1 : Int) : ℚ) ≤ (255 : ℚ) / (1 + ((depth * depth : Int) : ℚ) * (1 / 10000)) := by
      have hs : ((depth * depth : Int) : ℚ) ≤ 2537649 := by exact_mod_cast hsq1
      have hs0 : (0 : ℚ) ≤ ((depth * depth : Int) : ℚ) := by exact_mod_cast hsq0
      rw [le_div_iff₀ (by positivity)]
      push_cast
      push_cast at hs
      linarith
    have := Int.le_floor.mpr h1le
    omega
  · have := Int.floor_le_floor hq1
    simpa using this

/-- A hit of the march lies between the starting depth and the end of the
loop. -/
theorem marchFrom_hit_depth (m : String) (px py c s : ℚ) :
    ∀ (n : Nat) (depth : Int) (hit : Probe),
      (marchFrom m px py c s n depth).2 = some (some hit) →
      depth ≤ hit.depth ∧ hit.depth < depth + n := by
  intro n
  induction n with
  | zero =>
    intro depth hit h
    simp [marchFrom] at h
  | succ n ih =>
    intro depth hit h
    unfold marchFrom at h
    simp only at h
    split at h
    · simp at h
    · split at h
      · simp at h
      · split at h
        · simp only [Option.some.injEq] at h
          subst h
          simp only
          push_cast
          omega
        · have := ih (depth + 1) hit h
          push_cast
          omega

/-- Every hit of the whole march has a depth of the loop, `0 ≤ depth <
MAX_DEPTH`. -/
theorem rayMarch_hit_depth (m : String) (px py c s : ℚ) (hit : Probe)
    (h : (rayMarch m px py c s).2 = some (some hit)) :
    0 ≤ hit.depth ∧ hit.depth < MAX_DEPTH := by
  unfold rayMarch at h
  have := marchFrom_hit_depth m px py c s _ 0 hit h
  rw [MAX_DEPTH_toNat] at this
  have hmax : MAX_DEPTH = 480 := by decide
  rw [hmax]
  omega

theorem inOpenCell_180_240 : inOpenCell MAP 180 240 := by
  have h4 : truncQ ((240 : ℚ) / 60) = 4 :=
    truncQ_eq (by norm_num) (by norm_num) (by norm_num)
  have h3 : truncQ ((180 : ℚ) / 60) = 3 :=
    truncQ_eq (by norm_num) (by norm_num) (by norm_num)
  unfold inOpenCell
  rw [h4, h3]
  exact ⟨by decide, by decide, by decide, by decide, ' ', by decide, by decide⟩

theorem forwardX_west : forwardX westTrig fixedRounding upOnly ⟨180, 240, M_PI⟩ = 175 := by
  have h5 : (⌊(-1 * 5 : ℚ) * 65536 + 1 / 2⌋ : ℚ) / 65536 = -5 := by
    norm_num
  have h175 : (⌊(180 + -5 : ℚ) * 65536 + 1 / 2⌋ : ℚ) / 65536 = 175 := by
    norm_num
  have h175b : (⌊(175 : ℚ) * 65536 + 1 / 2⌋ : ℚ) / 65536 = 175 := by
    have := fixed_round_int 175
    push_cast at this
    exact this
  simp only [forwardX, westTrig, fixedRounding, h5, h175, h175b]

theorem forwardY_west : forwardY westTrig fixedRounding upOnly ⟨180, 240, M_PI⟩ = 240 := by
  have h0 : (⌊(12246467991473532 / 100000000000000000000000000000000 * 5 : ℚ) * 65536
      + 1 / 2⌋ : ℚ) / 65536 = 0 := by
    have hf : ⌊(12246467991473532 / 100000000000000000000000000000000 * 5 : ℚ) * 65536
        + 1 / 2⌋ = 0 := Int.floor_eq_iff.mpr ⟨by norm_num, by norm_num⟩
    rw [hf]
    norm_num
  have h240 : (⌊(240 - 0 : ℚ) * 65536 + 1 / 2⌋ : ℚ) / 65536 = 240 := by
    norm_num
  have h240b : (⌊(240 : ℚ) * 65536 + 1 / 2⌋ : ℚ) / 65536 = 240 := by
    have := fixed_round_int 240
    push_cast at this
    exact this
  simp only [forwardY, westTrig, fixedRounding, h0, h240, h240b]

theorem forward_west_wall :
    inWallCell MAP (forwardX westTrig fixedRounding upOnly ⟨180, 240, M_PI⟩)
      (forwardY westTrig fixedRounding upOnly ⟨180, 240, M_PI⟩) := by
  rw [forwardX_west, forwardY_west]
  have h4 : truncQ ((240 : ℚ) / 60) = 4 :=
    truncQ_eq (by norm_num) (by norm_num) (by norm_num)
  have h2 : truncQ ((175 : ℚ) / 60) = 2 :=
    truncQ_eq (by norm_num) (by norm_num) (by norm_num)
  unfold inWallCell
  rw [h4, h2]
  exact ⟨by decide, by decide, by decide, by decide, by decide⟩

/-! ## The claims -/

/-- C1. On the reference map, from every player state in a non-wall cell of the
grid and for every combination of the four keys, `userInput` returns a state
that is again in a non-wall cell; the state that `main` sets (240, 240) is in a
non-wall cell, hence so is the state after any number of frames.  This holds
for every `cos` and `sin` with values in `[-1, 1]` and every monotone rounding
that keeps the integers. -/
theorem player_never_in_wall (t : Trig) (ht : t.Bounded) (r : Rounding) (hr : r.Faithful) :
    inOpenCell MAP initialPlayer.x initialPlayer.y ∧
    (∀ (k : Keys) (p : Player), inOpenCell MAP p.x p.y →
      ∃ q, userInput t r k p = some q ∧ inOpenCell MAP q.x q.y) ∧
    (∀ ks : List Keys,
      ∃ q, frames t r ks initialPlayer = some q ∧ inOpenCell MAP q.x q.y) := by
  have hstart : inOpenCell MAP initialPlayer.x initialPlayer.y := by
    rw [initialPlayer_x, initialPlayer_y]
    exact inOpenCell_start
  exact ⟨hstart, fun k p h => userInput_keeps_open t ht r hr k p h,
    fun ks => frames_keep_open t ht r hr ks initialPlayer hstart⟩

theorem player_never_in_wall_witness :
    eastTrig.Bounded ∧ exactRounding.Faithful ∧
    ∃ q, frames eastTrig exactRounding [upOnly, leftOnly, upOnly] initialPlayer = some q ∧
      inOpenCell MAP q.x q.y :=
  ⟨eastTrig_bounded, exactRounding_faithful,
    (player_never_in_wall eastTrig eastTrig_bounded exactRounding exactRounding_faithful).2.2
      [upOnly, leftOnly, upOnly]⟩

/-- C2. For every point with `0 ≤ x < 480` and `0 ≤ y < 480` the index
`floor (y / 60) * 8 + floor (x / 60)` is in `[0, 64)`, and `checkCollision`
returns 1 exactly when the character of the reference map at that index is the
wall character, and 0 exactly when it is not; the check is a function of the
point and the map alone. -/
theorem checkCollision_spec (x y : ℚ) (hx0 : 0 ≤ x) (hx1 : x < 480) (hy0 : 0 ≤ y)
    (hy1 : y < 480) :
    0 ≤ ⌊y / 60⌋ * 8 + ⌊x / 60⌋ ∧ ⌊y / 60⌋ * 8 + ⌊x / 60⌋ < 64 ∧
    (checkCollision x y = some 1 ↔
      MAP.data[(⌊y / 60⌋ * 8 + ⌊x / 60⌋).toNat]? = some '#') ∧
    (checkCollision x y = some 0 ↔
      MAP.data[(⌊y / 60⌋ * 8 + ⌊x / 60⌋).toNat]? ≠ some '#') := by
  have hbx := floor_cell_bounds hx0 hx1
  have hby := floor_cell_bounds hy0 hy1
  rw [checkCollision_inMap hx0 hx1 hy0 hy1]
  refine ⟨by omega, by omega, ?_, ?_⟩ <;>
    by_cases hc : MAP.data[(⌊y / 60⌋ * 8 + ⌊x / 60⌋).toNat]? = some '#' <;> simp [hc]

theorem checkCollision_spec_witness :
    checkCollision 130 130 = some 1 ∧ checkCollision 70 130 = some 0 := by
  have h1 : ⌊(130 : ℚ) / 60⌋ = 2 := Int.floor_eq_iff.mpr ⟨by norm_num, by norm_num⟩
  have h2 : ⌊(70 : ℚ) / 60⌋ = 1 := Int.floor_eq_iff.mpr ⟨by norm_num, by norm_num⟩
  constructor
  · refine (checkCollision_spec 130 130 (by norm_num) (by norm_num) (by norm_num)
      (by norm_num)).2.2.1.mpr ?_
    rw [h1]
    decide
  · refine (checkCollision_spec 70 130 (by norm_num) (by norm_num) (by norm_num)
      (by norm_num)).2.2.2.mpr ?_
    rw [h1, h2]
    decide

/-- C3. On the reference map, from every player position in a non-wall cell
and for every direction of the ray (cosine and sine in `[-1, 1]`), every
operation of the ray march is defined, and every probe it computes, up to and
including the one that reads the wall character, is the point
`(x + c * depth, y - s * depth)` with `row` and `col` in `[0, 8)` and index
`row * 8 + col` in `[0, 64)`. -/
theorem rayMarch_stays_in_map (px py c s : ℚ) (hp : inOpenCell MAP px py)
    (hc : |c| ≤ 1) (hs : |s| ≤ 1) :
    (rayMarch MAP px py c s).2 ≠ none ∧
    ∀ pr ∈ (rayMarch MAP px py c s).1, pr.InGrid ∧
      pr.hit_x = px + c * pr.depth ∧ pr.hit_y = py - s * pr.depth ∧
      pr.row = truncQ (pr.hit_y / 60) ∧ pr.col = truncQ (pr.hit_x / 60) ∧
      pr.index = pr.row * 8 + pr.col := by
  obtain ⟨hx1, hx2, hy1, hy2⟩ := inOpenCell_bounds hp
  have h0 : ((0 : Int) : ℚ) = 0 := by norm_num
  unfold rayMarch
  exact marchFrom_safe px py c s hc hs _ 0 (by rw [h0]; linarith) (by rw [h0]; linarith)
    (by rw [h0]; linarith) (by rw [h0]; linarith)

theorem rayMarch_stays_in_map_witness :
    inOpenCell MAP 240 240 ∧ (rayMarch MAP 240 240 1 0).2 ≠ none :=
  ⟨inOpenCell_start,
    (rayMarch_stays_in_map 240 240 1 0 inOpenCell_start (by norm_num) (by norm_num)).1⟩

/-- C4, as amended. On the border-only map the ray marched due east from
(100, 100) stops at depth 320 at the point (420, 100), the west face of the
east border column, in the cell of row 1 and column 7 (index 15). -/
theorem rayMarch_east_hit :
    (rayMarch BORDER_MAP 100 100 1 0).2 = some (some ⟨320, 420, 100, 1, 7, 15⟩) :=
  rayMarch_east

/-- C4, counterexample. The hit of the ray due east from (100, 100) on the
border-only map is 60 units away from x = 480 and 60 steps away from depth
380. -/
theorem rayMarch_east_not_480 :
    ∃ h : Probe, (rayMarch BORDER_MAP 100 100 1 0).2 = some (some h) ∧
      480 - h.hit_x = 60 ∧ 380 - h.depth = 60 ∧
      ¬ (|h.hit_x - 480| ≤ 59) ∧ ¬ (|h.depth - 380| ≤ 59) := by
  refine ⟨eastHit, rayMarch_east, ?_, ?_, ?_, ?_⟩
  · norm_num [eastHit]
  · norm_num [eastHit]
  · norm_num [eastHit, abs_le]
  · simp only [eastHit]
    decide

/-- C5. For every depth `d ≥ 0` the divisor `d + 0.00001` is not zero and the
wall height is strictly positive, and the wall height at every larger depth is
strictly smaller. -/
theorem wallHeight_pos_decreasing (d : ℚ) (h0 : 0 ≤ d) :
    d + 1 / 100000 ≠ 0 ∧ 0 < wallHeight d ∧
    ∀ d2 : ℚ, d < d2 → wallHeight d2 < wallHeight d := by
  have hpos : 0 < d + 1 / 100000 := by positivity
  have hC : (0 : ℚ) < ((CONS : Int) : ℚ) := by norm_num [CONS]
  refine ⟨ne_of_gt hpos, div_pos hC hpos, ?_⟩
  intro d2 h
  unfold wallHeight
  exact div_lt_div_of_pos_left hC hpos (by linarith)

theorem wallHeight_pos_decreasing_witness :
    (0 : ℚ) ≤ 0 ∧ 0 < wallHeight 0 ∧ wallHeight 1 < wallHeight 0 :=
  ⟨le_refl 0, (wallHeight_pos_decreasing 0 (le_refl 0)).2.1,
    (wallHeight_pos_decreasing 0 (le_refl 0)).2.2 1 (by norm_num)⟩

/-- C6. For every non-negative integer depth of the ray march, that is every
`depth` with `0 ≤ depth < MAX_DEPTH`, the shade stored in the `int` variable
`color` is defined, greater than 0 and at most 255. -/
theorem shade_range (depth : Int) (h0 : 0 ≤ depth) (h1 : depth < MAX_DEPTH) :
    ∃ color, shade depth = some color ∧ 0 < color ∧ color ≤ 255 := by
  have hmax : MAX_DEPTH = 480 := by decide
  rw [hmax] at h1
  exact shade_range_wide depth h0 (by omega)

theorem shade_range_witness :
    (0 : Int) ≤ 479 ∧ (479 : Int) < MAX_DEPTH ∧
    ∃ color, shade 479 = some color ∧ 0 < color ∧ color ≤ 255 :=
  ⟨by decide, by decide, shade_range 479 (by decide) (by decide)⟩

/-- C7, as amended. The shade is non-increasing in the depth: for all depths
`0 ≤ d1 < d2` whose square fits an `int` (`d2 ≤ 46340`, which covers the
depths below 480 of the march) both shades are defined and the shade at `d2`
is at most the shade at `d1`. -/
theorem shade_nonincreasing (d1 d2 : Int) (h0 : 0 ≤ d1) (h : d1 < d2) (h2 : d2 ≤ 46340) :
    ∃ c1 c2, shade d1 = some c1 ∧ shade d2 = some c2 ∧ c2 ≤ c1 := by
  refine ⟨_, _, shade_eq_floor d1 h0 (by omega), shade_eq_floor d2 (by omega) h2, ?_⟩
  apply Int.floor_le_floor
  have hsq : d1 * d1 ≤ d2 * d2 := by nlinarith
  have hsq0 : 0 ≤ d1 * d1 := by nlinarith
  have hq : ((d1 * d1 : Int) : ℚ) ≤ ((d2 * d2 : Int) : ℚ) := by exact_mod_cast hsq
  have hq0 : (0 : ℚ) ≤ ((d1 * d1 : Int) : ℚ) := by exact_mod_cast hsq0
  apply div_le_div_of_nonneg_left (by norm_num) (by positivity)
  linarith

theorem shade_nonincreasing_witness :
    (0 : Int) ≤ 1 ∧ (1 : Int) < 2 ∧ (2 : Int) ≤ 46340 ∧
    ∃ c1 c2, shade 1 = some c1 ∧ shade 2 = some c2 ∧ c2 ≤ c1 :=
  ⟨by decide, by decide, by decide, shade_nonincreasing 1 2 (by decide) (by decide) (by decide)⟩

/-- C7, counterexample. The depths 1 and 2 have the same shade 254, so the
shade is not strictly decreasing. -/
theorem shade_not_strict : shade 1 = some 254 ∧ shade 2 = some 254 := by
  constructor
  · rw [shade_eq_floor 1 (by decide) (by decide)]
    congr 1
    exact Int.floor_eq_iff.mpr ⟨by norm_num, by norm_num⟩
  · rw [shade_eq_floor 2 (by decide) (by decide)]
    congr 1
    exact Int.floor_eq_iff.mpr ⟨by norm_num, by norm_num⟩

/-- C9. For every player state, one call of `userInput` with only the Left key
pressed returns the state with the angle lowered by 0.1 and the same `x` and
`y`. -/
theorem userInput_left_only (t : Trig) (r : Rounding) (p : Player) :
    userInput t r leftOnly p = some { x := p.x, y := p.y, angle := p.angle - 1 / 10 } := by
  simp [userInput, stepLeft, stepRight, stepUp, stepDown, leftOnly]

/-- C8. For every player state in a non-wall cell of the reference map and key
state with Up pressed and Down not pressed, with the candidate
`(x + cos(angle') * 5, y - sin(angle') * 5)` as the source computes it, `angle'`
being the angle after this call's turn update: if the candidate falls in a wall
cell, `userInput` leaves `x` and `y` as they were, and if it does not, `x` and
`y` both become the candidate. -/
theorem userInput_up_atomic (t : Trig) (ht : t.Bounded) (r : Rounding) (hr : r.Faithful)
    (k : Keys) (p : Player) (hup : k.up = true) (hdown : k.down = false)
    (hp : inOpenCell MAP p.x p.y) :
    (inWallCell MAP (forwardX t r k p) (forwardY t r k p) →
      userInput t r k p = some { x := p.x, y := p.y, angle := turnedAngle k p }) ∧
    (¬ inWallCell MAP (forwardX t r k p) (forwardY t r k p) →
      userInput t r k p =
        some { x := forwardX t r k p, y := forwardY t r k p, angle := turnedAngle k p }) := by
  obtain ⟨⟨hx0, hx1⟩, ⟨hy0, hy1⟩⟩ := forward_inMap t ht r hr p.x p.y (turnedAngle k p) hp
  have hwall := checkCollision_wall hx0 hx1 hy0 hy1
  have hmove := userInput_up_of_check t r k p hup hdown
  unfold forwardX forwardY at hmove ⊢
  exact ⟨fun h => hmove.1 (hwall.1 h), fun h => hmove.2 (hwall.2 h)⟩

/-- The player at (180, 240) heading west (`M_PI`) presses Up: the candidate
`y` is `240 - 5 * sin(M_PI)`, which rounds to 240, so the candidate (175, 240)
is in the wall cell of row 4 and column 2 and the player stays. -/
theorem userInput_up_atomic_witness :
    westTrig.Bounded ∧ fixedRounding.Faithful ∧ inOpenCell MAP 180 240 ∧
    inWallCell MAP (forwardX westTrig fixedRounding upOnly ⟨180, 240, M_PI⟩)
      (forwardY westTrig fixedRounding upOnly ⟨180, 240, M_PI⟩) ∧
    userInput westTrig fixedRounding upOnly ⟨180, 240, M_PI⟩ = some ⟨180, 240, M_PI⟩ := by
  have hopen : inOpenCell MAP 180 240 := inOpenCell_180_240
  have hwall := forward_west_wall
  refine ⟨westTrig_bounded, fixedRounding_faithful, hopen, hwall, ?_⟩
  have h := (userInput_up_atomic westTrig westTrig_bounded fixedRounding fixedRounding_faithful
    upOnly ⟨180, 240, M_PI⟩ rfl rfl hopen).1 hwall
  simpa [turnedAngle, stepLeft, stepRight, upOnly] using h

/-- C10. The corrected depth is the truncation of `depth * cos`, not the
product: on the outermost ray, whose cosine is 0.8660254037844387, the hit
depth 1 is corrected to 0, where the product is not 0 and the wall height
becomes 20000 / 0.00001, and the hit depth 100 is corrected to 86, where the
product is not 86. -/
theorem correctedDepth_truncates :
    correctedDepth 1 cosSixth = some 0 ∧ ((0 : Int) : ℚ) ≠ ((1 : Int) : ℚ) * cosSixth ∧
    wallHeight ((0 : Int) : ℚ) = 2000000000 ∧
    correctedDepth 100 cosSixth = some 86 ∧ ((86 : Int) : ℚ) ≠ ((100 : Int) : ℚ) * cosSixth := by
  refine ⟨?_, ?_, ?_, ?_, ?_⟩
  · exact castInt_eq (by norm_num [cosSixth]) (by norm_num [cosSixth])
      (by norm_num [cosSixth]) (by decide)
  · norm_num [cosSixth]
  · norm_num [wallHeight, CONS]
  · exact castInt_eq (by norm_num [cosSixth]) (by norm_num [cosSixth])
      (by norm_num [cosSixth]) (by decide)
  · norm_num [cosSixth]

end Ray
